import Mathlib

/-!
Verification development for the tabular CVaR Q-learning core
(`q_learning/q_learning.py`): the `MarkovState` / `ActionValueFunction`
data model, the CVaR/quantile conversion, the per-atom stochastic update
rule, and the episode loop.  Real arithmetic is embedded with `ℚ` so that
every statement is exact.
-/

namespace CvarQ

/-- Grid position; the source accesses its fields as `x.x` (column) and
`x.y` (row). -/
structure GridState where
  x : Nat
  y : Nat
deriving DecidableEq

/-- Per-(state, action) value distribution: `V` are the quantile
estimates, `yC` the scaled CVaR estimates (one entry per atom). -/
structure MarkovState where
  V : List ℚ
  yC : List ℚ
deriving DecidableEq

/-- Consecutive differences `atoms[1:] - atoms[:-1]`: the differences of the
atom grid, i.e. the probability mass of each atom interval. -/
def atom_p (atoms : List ℚ) : List ℚ :=
  List.zipWith (fun hi lo => hi - lo) atoms.tail atoms

/-- Python-style list read: a negative index counts from the end, as in
`V[-1]`; out-of-range reads fall back to the default. -/
def pyGetD (l : List ℚ) (i : Int) (d : ℚ) : ℚ :=
  if i < 0 then l.getD (l.length - (-i).toNat) d else l.getD i.toNat d

/-- Modelled from the spec: the helper of `util/cvar_computation.yc_to_var`
(that module is not under `src/`), finite-differencing a scaled-CVaR
sequence: each output entry is `(yC[i] - prev) / mass[i]` where `prev`
is the previous `yC` entry (`yC[-1]` treated as 0). -/
def yc_to_var_aux : List ℚ → List ℚ → ℚ → List ℚ
  | m :: ms, y :: ys, prev => (y - prev) / m :: yc_to_var_aux ms ys y
  | _, _, _ => []

/-- Modelled from the spec: `yc_to_var(atoms, yC)` recovers the
piecewise-constant quantile function from the scaled-CVaR sequence by
`V[i] = (yC[i] - yC[i-1]) / mass[i]`, with `yC[-1]` treated as 0. -/
def yc_to_var (atoms yc : List ℚ) : List ℚ :=
  yc_to_var_aux (atom_p atoms) yc 0

/-- Cumulative sums of `mass[i] * V[i]`, the inverse direction of
`yc_to_var`: re-derives a scaled-CVaR sequence from quantiles. -/
def yc_from_var_aux : List ℚ → List ℚ → ℚ → List ℚ
  | m :: ms, v :: vs, acc => (acc + m * v) :: yc_from_var_aux ms vs (acc + m * v)
  | _, _, _ => []

/-- Re-derive `yC` from a quantile sequence: entry `i` is
`∑_{j ≤ i} mass[j] * V[j]`. -/
def yc_from_var (ms vs : List ℚ) : List ℚ :=
  yc_from_var_aux ms vs 0

/-- Dot product (`np.dot`) on equal-length lists. -/
def dotL (a b : List ℚ) : ℚ :=
  (List.zipWith (fun p q => p * q) a b).sum

/-- Embeds `MarkovState.dist_from_yc`. -/
def dist_from_yc (st : MarkovState) (atoms : List ℚ) : List ℚ :=
  yc_to_var atoms st.yC

/-- Embeds `MarkovState.expected_value`: `np.dot(atom_p, self.dist_from_yc())`. -/
def expected_value (st : MarkovState) (atoms : List ℚ) : ℚ :=
  dotL (atom_p atoms) (dist_from_yc st atoms)

/-- The `for i in range(start, ...): if alpha < seq[i]: break` search
shared by `var_alpha` and `yc_alpha`: returns the index (counted from
`start`) of the first element exceeding `alpha`; when no element breaks
the loop, the python loop variable is left at the last tried index,
i.e. `start + length - 1` (and at `start - 1` when the range is empty). -/
def loop_break (alpha : ℚ) : List ℚ → Nat → Nat
  | [], i => i - 1
  | t :: rest, i => if alpha < t then i else loop_break alpha rest (i + 1)

/-- Embeds `MarkovState.yc_alpha`: linear interpolation of the CVaR curve at
risk level `alpha`. -/
def yc_alpha (st : MarkovState) (atoms : List ℚ) (alpha : ℚ) : ℚ :=
  let i := loop_break alpha atoms.tail 1
  let alpha_portion :=
    (alpha - pyGetD atoms ((i : Int) - 1) 0) /
      (pyGetD atoms (i : Int) 0 - pyGetD atoms ((i : Int) - 1) 0)
  if i = 1 then alpha_portion * pyGetD st.yC ((i : Int) - 1) 0
  else pyGetD st.yC ((i : Int) - 2) 0 +
    alpha_portion * (pyGetD st.yC ((i : Int) - 1) 0 - pyGetD st.yC ((i : Int) - 2) 0)

/-- The `for p, v in zip(atom_p, self.V)` accumulation of
`MarkovState.e_min_s`, with the early `break` at the first `v ≥ s`. -/
def e_min_s_zip (s : ℚ) : List (ℚ × ℚ) → ℚ
  | [] => 0
  | (p, v) :: rest => if v < s then p * (v - s) + e_min_s_zip s rest else 0

/-- Embeds `MarkovState.e_min_s`: the lower tail expectation `E[(V-s)^-]`. -/
def e_min_s (st : MarkovState) (masses : List ℚ) (s : ℚ) : ℚ :=
  e_min_s_zip s (masses.zip st.V)

/-- The table of `MarkovState`s: `self.Q` is indexed `(row, column,
action)`, and `self.world.ACTIONS` enumerates the actions. -/
structure ActionValueFunction where
  Q : Nat → Nat → Nat → MarkovState
  ACTIONS : List Nat

/-- Maximum (`np.max`) of a (nonempty) list of rationals. -/
def npMax : List ℚ → ℚ
  | [] => 0
  | q :: qs => qs.foldl max q

/-- Scanner of `np.argmax`: index of the first maximal element, scanning left to
right (`k` is the index of the head of the remaining list, `bv`/`best`
the best value and its index so far). -/
def npArgmax_go : List ℚ → Nat → ℚ → Nat → Nat
  | [], _, _, best => best
  | q :: qs, k, bv, best =>
    if bv < q then npArgmax_go qs (k + 1) q k else npArgmax_go qs (k + 1) bv best

/-- Index of the first maximum (`np.argmax`) of a list. -/
def npArgmax : List ℚ → Nat
  | [] => 0
  | q :: qs => npArgmax_go qs 1 q 0

/-- The per-atom maxima of `yC` over actions built inside
`ActionValueFunction.sup_q`:
`[max([Q[x.y, x.x, a].yC[i] for a in ACTIONS]) for i in range(NB_ATOMS)]`
(with `NB_ATOMS = len(atoms) - 1`). -/
def supYC (avf : ActionValueFunction) (atoms : List ℚ) (x : GridState) : List ℚ :=
  (List.range (atoms.length - 1)).map
    (fun i => npMax (avf.ACTIONS.map (fun a => (avf.Q x.y x.x a).yC.getD i 0)))

/-- Embeds `ActionValueFunction.sup_q`: per-atom supremum of `yC` over actions,
converted back to a quantile sequence. -/
def sup_q (avf : ActionValueFunction) (atoms : List ℚ) (x : GridState) : List ℚ :=
  yc_to_var atoms
    ((List.range (atoms.length - 1)).map
      (fun i => npMax (avf.ACTIONS.map (fun a => (avf.Q x.y x.x a).yC.getD i 0))))

/-- Embeds `ActionValueFunction.var_alpha`: note the source reads
`self.Q[x.x, x.y, a]`, with the two grid coordinates transposed relative
to the `self.Q[x.y, x.x, a]` convention used by every other method. -/
def var_alpha (avf : ActionValueFunction) (atoms : List ℚ) (x : GridState)
    (a : Nat) (alpha : ℚ) : ℚ :=
  pyGetD (avf.Q x.x x.y a).V ((loop_break alpha atoms 0 : Int) - 1) 0

/-- Embeds `ActionValueFunction.next_action_alpha`. -/
def next_action_alpha (avf : ActionValueFunction) (atoms : List ℚ)
    (x : GridState) (alpha : ℚ) : Nat :=
  npArgmax (avf.ACTIONS.map (fun a => yc_alpha (avf.Q x.y x.x a) atoms alpha))

/-- Embeds `ActionValueFunction.next_action_s`. -/
def next_action_s (avf : ActionValueFunction) (atoms : List ℚ)
    (x : GridState) (s : ℚ) : Nat :=
  npArgmax (avf.ACTIONS.map (fun a => e_min_s (avf.Q x.y x.x a) (atom_p atoms) s))

/-- One pass of the inner `for i, atom in enumerate(atoms[1:])` loop of
`ActionValueFunction.update` for a single candidate value `v`: at each
index the saved pre-step `V[i]`, `yC[i]` are read first, then `V[i]` is
nudged and `yC[i]` is moved by an exponential moving average. -/
def stepAtoms (bbeta r ggamma v : ℚ) : List ℚ → List ℚ → List ℚ → List ℚ × List ℚ
  | atom :: as, Vi :: Vs, yCi :: yCs =>
    let V := Vi
    let yC := yCi
    let rest := stepAtoms bbeta r ggamma v as Vs yCs
    ((if Vi ≥ r + ggamma * v then Vi + bbeta * (1 - 1 / atom) else Vi + bbeta) :: rest.1,
     ((1 - bbeta) * yC + bbeta * (atom * V + min 0 (r + ggamma * v - V))) :: rest.2)
  | _, _, _ => ([], [])

/-- The full double loop of `ActionValueFunction.update`: the outer
`for v in V_x` folds the single-target pass over the candidate values. -/
def update_inner (ggamma bbeta r : ℚ) (atomsTail : List ℚ) (V_x : List ℚ)
    (st : MarkovState) : MarkovState :=
  V_x.foldl
    (fun s v =>
      let p := stepAtoms bbeta r ggamma v atomsTail s.V s.yC
      ⟨p.1, p.2⟩)
    st

/-- Write one cell of the table (the in-place mutation of
`self.Q[x.y, x.x, a]`). -/
def setQ (avf : ActionValueFunction) (row col a : Nat) (st : MarkovState) :
    ActionValueFunction :=
  ⟨fun i j b => if i = row ∧ j = col ∧ b = a then st else avf.Q i j b, avf.ACTIONS⟩

/-- Embeds `ActionValueFunction.update(x, a, x_, r)`: runs the double loop on
the `(x, a)` cell, then asserts `V[0] <= V[-1]`; an assertion failure
(`none`) aborts the call. -/
def update (avf : ActionValueFunction) (atoms : List ℚ) (ggamma bbeta : ℚ)
    (x : GridState) (a : Nat) (x_ : GridState) (r : ℚ) :
    Option ActionValueFunction :=
  let st' := update_inner ggamma bbeta r atoms.tail (sup_q avf atoms x_) (avf.Q x.y x.x a)
  if st'.V.getD 0 0 ≤ pyGetD st'.V (-1) 0 then some (setQ avf x.y x.x a st')
  else none

/-- Embeds `eps_greedy(a, eps, action_space)`: the random draw `u` and the
uniformly chosen index `jdx` are supplied by the caller as oracles. -/
def eps_greedy (a : Nat) (eps : ℚ) (action_space : List Nat) (u : ℚ) (jdx : Nat) : Nat :=
  if u < eps then action_space.getD jdx a else a

/-- The environment interface used by the learning loop. -/
structure World where
  initial_state : GridState
  goal_states : List GridState

/-- The inner `while x not in world.goal_states and i < max_episode_length`
loop of `q_learning`, with the remaining step budget of the loop as fuel and
the randomness of `eps_greedy` / `world.sample_transition` supplied as
step-indexed oracles.  Returns `none` when the assertion in `update` fails. -/
def q_ep_loop (world : World) (atoms : List ℚ) (ggamma bbeta eps : ℚ)
    (u : Nat → ℚ) (jdx : Nat → Nat) (samp : Nat → GridState → Nat → GridState × ℚ) :
    Nat → GridState → ℚ → ActionValueFunction → Nat →
      Option (GridState × ℚ × ActionValueFunction × Nat)
  | 0, x, s, Q, i => some (x, s, Q, i)
  | Nat.succ fuel, x, s, Q, i =>
    if x ∈ world.goal_states then some (x, s, Q, i)
    else
      let a := eps_greedy (next_action_s Q atoms x s) eps Q.ACTIONS (u i) (jdx i)
      let t := samp i x a
      match update Q atoms ggamma bbeta x a t.1 t.2 with
      | none => none
      | some Q' =>
        q_ep_loop world atoms ggamma bbeta eps u jdx samp fuel t.1 ((s - t.2) / ggamma) Q' (i + 1)

/-- The initial action of an episode:
`a = eps_greedy(Q.next_action_alpha(x, alpha), eps, world.ACTIONS)`. -/
def q_ep_init_action (world : World) (Q : ActionValueFunction) (atoms : List ℚ)
    (eps alpha : ℚ) (u0 : ℚ) (j0 : Nat) : Nat :=
  eps_greedy (next_action_alpha Q atoms world.initial_state alpha) eps Q.ACTIONS u0 j0

/-- One episode of `q_learning`: pick the initial action, derive the
starting risk budget `s = Q.var_alpha(x, a, alpha)`, then run the loop. -/
def q_episode (world : World) (atoms : List ℚ) (ggamma bbeta eps alpha : ℚ)
    (u0 : ℚ) (j0 : Nat) (u : Nat → ℚ) (jdx : Nat → Nat)
    (samp : Nat → GridState → Nat → GridState × ℚ) (maxlen : Nat)
    (Q : ActionValueFunction) : Option (GridState × ℚ × ActionValueFunction × Nat) :=
  let x := world.initial_state
  let a := q_ep_init_action world Q atoms eps alpha u0 j0
  let s := var_alpha Q atoms x a alpha
  q_ep_loop world atoms ggamma bbeta eps u jdx samp maxlen x s Q 0

/-! ### Helper lemmas on the atom grid and the CVaR/quantile conversion -/

theorem atom_p_nil : atom_p [] = [] := rfl

theorem atom_p_single (a : ℚ) : atom_p [a] = [] := rfl

theorem atom_p_cons (a b : ℚ) (l : List ℚ) :
    atom_p (a :: b :: l) = (b - a) :: atom_p (b :: l) := rfl

theorem atom_p_length (l : List ℚ) : (atom_p l).length = l.length - 1 := by
  simp [atom_p, List.length_zipWith]

theorem atom_p_pos : ∀ (l : List ℚ), List.Chain' (fun p q => p < q) l →
    ∀ m ∈ atom_p l, 0 < m
  | [], _, m, hm => by simp [atom_p_nil] at hm
  | [a], _, m, hm => by simp [atom_p_single] at hm
  | a :: b :: l, h, m, hm => by
    rw [atom_p_cons] at hm
    rcases List.mem_cons.mp hm with h1 | h2
    · have hab : a < b := (List.chain'_cons.mp h).1
      rw [h1]
      linarith
    · exact atom_p_pos (b :: l) (List.chain'_cons.mp h).2 m h2

theorem yc_roundtrip_aux : ∀ (ms ys : List ℚ) (prev : ℚ),
    ms.length = ys.length → (∀ m ∈ ms, m ≠ 0) →
    yc_from_var_aux ms (yc_to_var_aux ms ys prev) prev = ys
  | [], [], _, _, _ => rfl
  | [], _ :: _, _, h, _ => by simp at h
  | _ :: _, [], _, h, _ => by simp at h
  | m :: ms, y :: ys, prev, h, hm => by
    have hm0 : m ≠ 0 := hm m (List.mem_cons_self m ms)
    have key : prev + m * ((y - prev) / m) = y := by
      field_simp
    simp only [yc_to_var_aux, yc_from_var_aux, key]
    rw [yc_roundtrip_aux ms ys y (by simpa using h)
      (fun q hq => hm q (List.mem_cons_of_mem m hq))]

theorem dotL_cons (m v : ℚ) (ms vs : List ℚ) :
    dotL (m :: ms) (v :: vs) = m * v + dotL ms vs := by
  simp [dotL]

theorem dotL_yc_to_var_aux : ∀ (ms ys : List ℚ) (prev : ℚ),
    ms.length = ys.length → (∀ m ∈ ms, m ≠ 0) →
    dotL ms (yc_to_var_aux ms ys prev) = ys.getLastD prev - prev
  | [], [], prev, _, _ => by simp [dotL, yc_to_var_aux]
  | [], _ :: _, _, h, _ => by simp at h
  | _ :: _, [], _, h, _ => by simp at h
  | m :: ms, y :: ys, prev, h, hm => by
    have hm0 : m ≠ 0 := hm m (List.mem_cons_self m ms)
    have key : m * ((y - prev) / m) = y - prev := by
      field_simp
    simp only [yc_to_var_aux, dotL_cons, key, List.getLastD_cons]
    rw [dotL_yc_to_var_aux ms ys y (by simpa using h)
      (fun q hq => hm q (List.mem_cons_of_mem m hq))]
    ring

/-! ### C4: the conversion round-trip -/

/-- C4: for every `yC` sequence over a strictly increasing atom grid,
applying `yc_to_var` and then re-deriving `yC` as the cumulative sum of
`mass[i] * V[i]` returns the original sequence exactly: `yc_to_var` is a
right inverse of the cumulative mass-weighted sum. -/
theorem c4_yc_to_var_right_inverse (atoms yc : List ℚ)
    (hchain : List.Chain' (fun p q => p < q) atoms)
    (hlen : atoms.length = yc.length + 1) :
    yc_from_var (atom_p atoms) (yc_to_var atoms yc) = yc := by
  have hl : (atom_p atoms).length = yc.length := by
    rw [atom_p_length]
    omega
  exact yc_roundtrip_aux (atom_p atoms) yc 0 hl
    (fun m hm => ne_of_gt (atom_p_pos atoms hchain m hm))

/-- Witness for C4 on the grid `[0, 1/4, 1/2, 1]`. -/
theorem c4_witness :
    yc_from_var (atom_p [0, 1/4, 1/2, 1]) (yc_to_var [0, 1/4, 1/2, 1] [1, 2, 3]) =
      [1, 2, 3] :=
  c4_yc_to_var_right_inverse [0, 1/4, 1/2, 1] [1, 2, 3]
    (by norm_num [List.chain'_cons]) (by norm_num)

/-! ### C10: `expected_value` telescopes to the last CVaR entry -/

/-- C10: over a strictly increasing atom grid, `expected_value()` equals
the last stored CVaR entry (the mass-weighted dot product of the
`yC`-derived quantiles telescopes), and it does not depend on the stored
`V` sequence at all. -/
theorem c10_expected_value_eq_last (st : MarkovState) (atoms : List ℚ)
    (hchain : List.Chain' (fun p q => p < q) atoms)
    (hlen : atoms.length = st.yC.length + 1) :
    expected_value st atoms = st.yC.getLastD 0 ∧
    ∀ V' : List ℚ, expected_value ⟨V', st.yC⟩ atoms = expected_value st atoms := by
  constructor
  · have hl : (atom_p atoms).length = st.yC.length := by
      rw [atom_p_length]
      omega
    have h := dotL_yc_to_var_aux (atom_p atoms) st.yC 0 hl
      (fun m hm => ne_of_gt (atom_p_pos atoms hchain m hm))
    simpa [expected_value, dist_from_yc, yc_to_var] using h
  · intro V'
    rfl

/-- Witness for C10: the expected value of a state with `yC = [1, 2, 3]`
is `3`, whatever `V` holds. -/
theorem c10_witness :
    expected_value ⟨[9, 9, 9], [1, 2, 3]⟩ [0, 1/4, 1/2, 1] =
      ([1, 2, 3] : List ℚ).getLastD 0 :=
  (c10_expected_value_eq_last ⟨[9, 9, 9], [1, 2, 3]⟩ [0, 1/4, 1/2, 1]
    (by norm_num [List.chain'_cons]) (by norm_num)).1

/-! ### Helper lemmas on `npMax` -/

theorem foldl_max_le_init : ∀ (l : List ℚ) (acc : ℚ), acc ≤ l.foldl max acc
  | [], _ => le_refl _
  | q :: qs, acc =>
    le_trans (le_max_left acc q) (foldl_max_le_init qs (max acc q))

theorem le_foldl_max : ∀ (l : List ℚ) (acc y : ℚ), y ∈ l → y ≤ l.foldl max acc
  | [], _, _, hy => absurd hy (List.not_mem_nil _)
  | q :: qs, acc, y, hy => by
    rcases List.mem_cons.mp hy with h1 | h2
    · rw [h1]
      exact le_trans (le_max_right acc q) (foldl_max_le_init qs (max acc q))
    · exact le_foldl_max qs (max acc q) y h2

theorem foldl_max_mem : ∀ (l : List ℚ) (acc : ℚ),
    l.foldl max acc = acc ∨ l.foldl max acc ∈ l
  | [], _ => Or.inl rfl
  | q :: qs, acc => by
    rcases foldl_max_mem qs (max acc q) with h | h
    · rcases max_choice acc q with hm | hm
      · exact Or.inl (by rw [List.foldl_cons, h, hm])
      · exact Or.inr (by rw [List.foldl_cons, h, hm]; exact List.mem_cons_self q qs)
    · exact Or.inr (List.mem_cons_of_mem q h)

theorem npMax_mem (l : List ℚ) (h : l ≠ []) : npMax l ∈ l := by
  match l with
  | [] => exact absurd rfl h
  | q :: qs =>
    rcases foldl_max_mem qs q with h1 | h1
    · rw [npMax, h1]
      exact List.mem_cons_self q qs
    · exact List.mem_cons_of_mem q h1

theorem le_npMax (l : List ℚ) (y : ℚ) (h : y ∈ l) : y ≤ npMax l := by
  match l with
  | [] => exact absurd h (List.not_mem_nil y)
  | q :: qs =>
    rcases List.mem_cons.mp h with h1 | h1
    · rw [h1]
      exact foldl_max_le_init qs q
    · exact le_foldl_max qs q y h1

theorem range_map_getD (n i : Nat) (f : Nat → ℚ) (h : i < n) :
    ((List.range n).map f).getD i 0 = f i := by
  rw [List.getD_eq_getElem?_getD]
  simp [List.getElem?_map, List.getElem?_range h]

/-! ### C3: `sup_q` is the per-atom max of `yC`, converted to quantiles -/

/-- C3: `sup_q(x)` equals `yc_to_var(atoms, m)` where `m[i]` is the
maximum over actions of the stored `yC[i]`, and re-deriving the CVaR
envelope of its output (cumulative sums of `mass[i]` times the returned
quantiles) yields exactly this per-atom maximum. -/
theorem c3_sup_q (avf : ActionValueFunction) (atoms : List ℚ) (x : GridState)
    (hchain : List.Chain' (fun p q => p < q) atoms)
    (hA : avf.ACTIONS ≠ []) :
    sup_q avf atoms x = yc_to_var atoms (supYC avf atoms x) ∧
    (∀ i, i < atoms.length - 1 →
      (∃ a ∈ avf.ACTIONS,
        (supYC avf atoms x).getD i 0 = (avf.Q x.y x.x a).yC.getD i 0) ∧
      (∀ a ∈ avf.ACTIONS,
        (avf.Q x.y x.x a).yC.getD i 0 ≤ (supYC avf atoms x).getD i 0)) ∧
    yc_from_var (atom_p atoms) (sup_q avf atoms x) = supYC avf atoms x := by
  refine ⟨rfl, fun i hi => ?_, ?_⟩
  · have hgetD : (supYC avf atoms x).getD i 0 =
        npMax (avf.ACTIONS.map (fun a => (avf.Q x.y x.x a).yC.getD i 0)) :=
      range_map_getD _ i _ hi
    constructor
    · have hne : avf.ACTIONS.map (fun a => (avf.Q x.y x.x a).yC.getD i 0) ≠ [] := by
        simpa using hA
      have hmem := npMax_mem _ hne
      rcases List.mem_map.mp hmem with ⟨a, ha, hval⟩
      exact ⟨a, ha, by rw [hgetD, ← hval]⟩
    · intro a ha
      rw [hgetD]
      exact le_npMax _ _ (List.mem_map.mpr ⟨a, ha, rfl⟩)
  · have hl : (atom_p atoms).length = (supYC avf atoms x).length := by
      rw [atom_p_length]
      simp [supYC]
    exact yc_roundtrip_aux (atom_p atoms) (supYC avf atoms x) 0 hl
      (fun m hm => ne_of_gt (atom_p_pos atoms hchain m hm))

/-- A two-action table used by the C3 witness: action 0 has
`yC = [1, 1, 1]`, action 1 has `yC = [0, 2, 1]`. -/
def avfC3 : ActionValueFunction :=
  ⟨fun _ _ a => if a = 0 then ⟨[0, 0, 0], [1, 1, 1]⟩ else ⟨[0, 0, 0], [0, 2, 1]⟩,
   [0, 1]⟩

/-- Witness for C3 at a concrete two-action table. -/
theorem c3_witness :
    sup_q avfC3 [0, 1/4, 1/2, 1] ⟨0, 0⟩ =
      yc_to_var [0, 1/4, 1/2, 1] (supYC avfC3 [0, 1/4, 1/2, 1] ⟨0, 0⟩) ∧
    (avfC3.Q 0 0 1).yC.getD 0 0 ≤ (supYC avfC3 [0, 1/4, 1/2, 1] ⟨0, 0⟩).getD 0 0 ∧
    yc_from_var (atom_p [0, 1/4, 1/2, 1]) (sup_q avfC3 [0, 1/4, 1/2, 1] ⟨0, 0⟩) =
      supYC avfC3 [0, 1/4, 1/2, 1] ⟨0, 0⟩ := by
  have h := c3_sup_q avfC3 [0, 1/4, 1/2, 1] ⟨0, 0⟩
    (by norm_num [List.chain'_cons]) (by simp [avfC3])
  exact ⟨h.1, (h.2.1 0 (by norm_num)).2 1 (by simp [avfC3]), h.2.2⟩

/-! ### Helper lemmas on the per-atom update step -/

theorem stepAtoms_length_eq (bbeta r ggamma v : ℚ) : ∀ (as Vs ys : List ℚ),
    as.length = Vs.length → Vs.length = ys.length →
    (stepAtoms bbeta r ggamma v as Vs ys).1.length = Vs.length ∧
    (stepAtoms bbeta r ggamma v as Vs ys).2.length = ys.length
  | [], [], [], _, _ => ⟨rfl, rfl⟩
  | [], _ :: _, _, h1, _ => by simp at h1
  | _ :: _, [], _, h1, _ => by simp at h1
  | _ :: _, _ :: _, [], _, h2 => by simp at h2
  | a :: as, Vi :: Vs, yi :: ys, h1, h2 => by
    have ih := stepAtoms_length_eq bbeta r ggamma v as Vs ys
      (by simpa using h1) (by simpa using h2)
    simp [stepAtoms, ih.1, ih.2]

theorem stepAtoms_getD (bbeta r ggamma v : ℚ) : ∀ (as Vs ys : List ℚ) (i : Nat),
    as.length = Vs.length → Vs.length = ys.length → i < Vs.length →
    (stepAtoms bbeta r ggamma v as Vs ys).1.getD i 0 =
      (if Vs.getD i 0 ≥ r + ggamma * v then
        Vs.getD i 0 + bbeta * (1 - 1 / as.getD i 0)
      else Vs.getD i 0 + bbeta) ∧
    (stepAtoms bbeta r ggamma v as Vs ys).2.getD i 0 =
      (1 - bbeta) * ys.getD i 0 +
        bbeta * (as.getD i 0 * Vs.getD i 0 + min 0 (r + ggamma * v - Vs.getD i 0))
  | [], [], [], i, _, _, hi => by simp at hi
  | [], _ :: _, _, i, h1, _, _ => by simp at h1
  | _ :: _, [], _, i, h1, _, _ => by simp at h1
  | _ :: _, _ :: _, [], i, _, h2, _ => by simp at h2
  | a :: as, Vi :: Vs, yi :: ys, 0, _, _, _ => by
    constructor <;> simp [stepAtoms]
  | a :: as, Vi :: Vs, yi :: ys, i + 1, h1, h2, hi => by
    have ih := stepAtoms_getD bbeta r ggamma v as Vs ys i
      (by simpa using h1) (by simpa using h2) (by simpa using hi)
    simpa [stepAtoms] using ih

/-! ### C1: a single atom-target step of `update` -/

/-- C1: each atom-target step inside `update` nudges `V[i]` up by
`beta*(1 - 1/atom)` when the stored `V[i]` dominates the target
`r + gamma*v` and by `beta` otherwise, and moves `yC[i]` to
`(1-beta)*yC[i] + beta*(atom*V[i] + min(0, (r + gamma*v) - V[i]))`, with
the right-hand-side `V[i]`/`yC[i]` being the values read before this
write of this step to `V[i]`. -/
theorem c1_atom_target_step (bbeta r ggamma v : ℚ) (as Vs ys : List ℚ) (i : Nat)
    (h1 : as.length = Vs.length) (h2 : Vs.length = ys.length)
    (hi : i < Vs.length) :
    (stepAtoms bbeta r ggamma v as Vs ys).1.getD i 0 =
      (if Vs.getD i 0 ≥ r + ggamma * v then
        Vs.getD i 0 + bbeta * (1 - 1 / as.getD i 0)
      else Vs.getD i 0 + bbeta) ∧
    (stepAtoms bbeta r ggamma v as Vs ys).2.getD i 0 =
      (1 - bbeta) * ys.getD i 0 +
        bbeta * (as.getD i 0 * Vs.getD i 0 + min 0 (r + ggamma * v - Vs.getD i 0)) :=
  stepAtoms_getD bbeta r ggamma v as Vs ys i h1 h2 hi

/-- Witness for C1 at concrete data (atom `1/2`, dominated target). -/
theorem c1_witness :
    (stepAtoms (1/10) 0 1 2 [1/2, 1] [3, 4] [5, 6]).1.getD 0 0 =
      (if (3 : ℚ) ≥ 0 + 1 * 2 then (3 : ℚ) + (1/10) * (1 - 1 / (1/2))
       else (3 : ℚ) + 1/10) ∧
    (stepAtoms (1/10) 0 1 2 [1/2, 1] [3, 4] [5, 6]).2.getD 0 0 =
      (1 - 1/10) * 5 + (1/10) * ((1/2) * 3 + min 0 (0 + 1 * 2 - 3)) := by
  have h := c1_atom_target_step (1/10) 0 1 2 [1/2, 1] [3, 4] [5, 6] 0
    (by norm_num) (by norm_num) (by norm_num)
  simpa using h

/-! ### C2: the double loop of `update` -/

/-- The per-atom observation of one atom-target step: how a single pair
`(V[i], yC[i])` moves under one candidate target `t`. -/
def target_step (bbeta atom t : ℚ) (p : ℚ × ℚ) : ℚ × ℚ :=
  ((if p.1 ≥ t then p.1 + bbeta * (1 - 1 / atom) else p.1 + bbeta),
   (1 - bbeta) * p.2 + bbeta * (atom * p.1 + min 0 (t - p.1)))

theorem update_inner_getD (ggamma bbeta r : ℚ) (atomsTail : List ℚ) :
    ∀ (V_x : List ℚ) (st : MarkovState) (i : Nat),
    atomsTail.length = st.V.length → st.V.length = st.yC.length →
    i < st.V.length →
    ((update_inner ggamma bbeta r atomsTail V_x st).V.getD i 0,
     (update_inner ggamma bbeta r atomsTail V_x st).yC.getD i 0) =
      V_x.foldl (fun p v => target_step bbeta (atomsTail.getD i 0) (r + ggamma * v) p)
        (st.V.getD i 0, st.yC.getD i 0)
  | [], st, i, _, _, _ => rfl
  | v :: vs, st, i, h1, h2, hi => by
    have hlen := stepAtoms_length_eq bbeta r ggamma v atomsTail st.V st.yC h1 h2
    have hstep := stepAtoms_getD bbeta r ggamma v atomsTail st.V st.yC i h1 h2 hi
    have hnext := update_inner_getD ggamma bbeta r atomsTail vs
      ⟨(stepAtoms bbeta r ggamma v atomsTail st.V st.yC).1,
       (stepAtoms bbeta r ggamma v atomsTail st.V st.yC).2⟩ i
      (by simpa [hlen.1] using h1) (by simp [hlen.1, hlen.2]; omega)
      (by simpa [hlen.1] using hi)
    show ((update_inner ggamma bbeta r atomsTail vs _).V.getD i 0,
          (update_inner ggamma bbeta r atomsTail vs _).yC.getD i 0) = _
    rw [hnext]
    simp only [List.foldl_cons]
    rw [hstep.1, hstep.2]
    rfl

/-- C2 (amended): per `update` call the atom-target step runs once per
atom per candidate target from `sup_q(x_)` (not once per atom), and the
pair `(V[i], yC[i])` of atom `i` evolves by folding the single-atom
step over all targets, starting from the values held at entry to the
call — the step for each target reads the values written for the same
atom by the step of the previous target, never values of other atoms. -/
theorem c2_update_per_atom_fold (avf : ActionValueFunction) (atoms : List ℚ)
    (ggamma bbeta r : ℚ) (x : GridState) (a : Nat) (x_ : GridState)
    (avf' : ActionValueFunction) (i : Nat)
    (h1 : atoms.tail.length = (avf.Q x.y x.x a).V.length)
    (h2 : (avf.Q x.y x.x a).V.length = (avf.Q x.y x.x a).yC.length)
    (hi : i < (avf.Q x.y x.x a).V.length)
    (hupd : update avf atoms ggamma bbeta x a x_ r = some avf') :
    ((avf'.Q x.y x.x a).V.getD i 0, (avf'.Q x.y x.x a).yC.getD i 0) =
      (sup_q avf atoms x_).foldl
        (fun p v => target_step bbeta (atoms.tail.getD i 0) (r + ggamma * v) p)
        ((avf.Q x.y x.x a).V.getD i 0, (avf.Q x.y x.x a).yC.getD i 0) := by
  have hcell : avf'.Q x.y x.x a =
      update_inner ggamma bbeta r atoms.tail (sup_q avf atoms x_) (avf.Q x.y x.x a) := by
    rw [update] at hupd
    by_cases hc : (update_inner ggamma bbeta r atoms.tail (sup_q avf atoms x_)
        (avf.Q x.y x.x a)).V.getD 0 0 ≤
        pyGetD (update_inner ggamma bbeta r atoms.tail (sup_q avf atoms x_)
          (avf.Q x.y x.x a)).V (-1) 0
    · rw [if_pos hc] at hupd
      rw [← Option.some.inj hupd]
      simp [setQ]
    · rw [if_neg hc] at hupd
      exact absurd hupd (by simp)
  rw [hcell]
  exact update_inner_getD ggamma bbeta r atoms.tail (sup_q avf atoms x_)
    (avf.Q x.y x.x a) i h1 h2 hi

/-! ### Concrete fixtures shared by witnesses and counterexamples -/

/-- A one-action table whose every cell is the zero `MarkovState` with
two atoms. -/
def avf0 : ActionValueFunction := ⟨fun _ _ _ => ⟨[0, 0], [0, 0]⟩, [0]⟩

/-- The atom grid `[0, 1/2, 1]` (two atoms). -/
def atoms3 : List ℚ := [0, 1/2, 1]

/-- C2, counterexample to the claim as stated: with two candidate
targets the per-atom step does not run once per atom on the entry
values.  Here `beta = 1/10`, `gamma = 1`, `r = 1`, both targets equal
`1`, and the entry value of `V[0]` is `0`: a single step would leave
`V[0]` at `0 + 1/10` (non-dominating) or `0 + (1/10)*(1 - 1/(1/2))`
(dominating), but `update` leaves it at `1/5` — the atom was stepped
once per target, the second step reading the write of the first. -/
theorem c2_counterexample :
    (update avf0 atoms3 1 (1/10) ⟨0, 0⟩ 0 ⟨0, 0⟩ 1).map
        (fun q => (q.Q 0 0 0).V.getD 0 0) = some (1/5) ∧
    ((1 : ℚ)/5 ≠ 0 + 1/10) ∧ ((1 : ℚ)/5 ≠ 0 + (1/10) * (1 - 1 / (1/2))) := by
  refine ⟨?_, by norm_num, by norm_num⟩
  norm_num [update, update_inner, stepAtoms, sup_q, yc_to_var, yc_to_var_aux,
    atom_p, npMax, avf0, atoms3, List.range_succ, pyGetD, setQ, min_def]

/-- Witness for C2 (amended): the concrete `update` call of the
counterexample satisfies the per-atom fold description. -/
theorem c2_witness :
    (update avf0 atoms3 1 (1/10) ⟨0, 0⟩ 0 ⟨0, 0⟩ 1).map
        (fun q => ((q.Q 0 0 0).V.getD 0 0, (q.Q 0 0 0).yC.getD 0 0)) =
      some ((sup_q avf0 atoms3 ⟨0, 0⟩).foldl
        (fun p v => target_step (1/10) (atoms3.tail.getD 0 0) (1 + 1 * v) p)
        ((avf0.Q 0 0 0).V.getD 0 0, (avf0.Q 0 0 0).yC.getD 0 0)) := by
  have hne : update avf0 atoms3 1 (1/10) ⟨0, 0⟩ 0 ⟨0, 0⟩ 1 ≠ none := by
    norm_num [update, update_inner, stepAtoms, sup_q, yc_to_var, yc_to_var_aux,
      atom_p, npMax, avf0, atoms3, List.range_succ, pyGetD, setQ, min_def]
    exact Option.some_ne_none _
  cases hopt : update avf0 atoms3 1 (1/10) ⟨0, 0⟩ 0 ⟨0, 0⟩ 1 with
  | none => exact absurd hopt hne
  | some avf' =>
    rw [Option.map_some']
    exact congrArg some (c2_update_per_atom_fold avf0 atoms3 1 (1/10) 1 ⟨0, 0⟩ 0
      ⟨0, 0⟩ avf' 0 (by norm_num [avf0, atoms3]) (by norm_num [avf0])
      (by norm_num [avf0]) hopt)

/-! ### C8: the monotonicity assertion of `update` -/

theorem setQ_same (avf : ActionValueFunction) (row col a : Nat) (st : MarkovState) :
    (setQ avf row col a st).Q row col a = st := by
  simp [setQ]

/-- C8: `update(x, a, x_, r)` fails its assertion (returning no table)
iff, after the per-atom loop completes, the updated `(x, a)` cell has
`V[0] > V[-1]`; whenever the call returns normally, the post-condition
`V[0] <= V[-1]` holds for that cell. -/
theorem c8_update_assert (avf : ActionValueFunction) (atoms : List ℚ)
    (ggamma bbeta r : ℚ) (x : GridState) (a : Nat) (x_ : GridState) :
    (update avf atoms ggamma bbeta x a x_ r = none ↔
      ¬ ((update_inner ggamma bbeta r atoms.tail (sup_q avf atoms x_)
            (avf.Q x.y x.x a)).V.getD 0 0 ≤
          pyGetD (update_inner ggamma bbeta r atoms.tail (sup_q avf atoms x_)
            (avf.Q x.y x.x a)).V (-1) 0)) ∧
    (∀ avf', update avf atoms ggamma bbeta x a x_ r = some avf' →
      (avf'.Q x.y x.x a).V.getD 0 0 ≤ pyGetD (avf'.Q x.y x.x a).V (-1) 0) := by
  constructor
  · simp only [update]
    by_cases hc : (update_inner ggamma bbeta r atoms.tail (sup_q avf atoms x_)
        (avf.Q x.y x.x a)).V.getD 0 0 ≤
        pyGetD (update_inner ggamma bbeta r atoms.tail (sup_q avf atoms x_)
          (avf.Q x.y x.x a)).V (-1) 0
    · rw [if_pos hc]
      exact iff_of_false (Option.some_ne_none _) (not_not_intro hc)
    · rw [if_neg hc]
      exact iff_of_true rfl hc
  · intro avf' h
    simp only [update] at h
    by_cases hc : (update_inner ggamma bbeta r atoms.tail (sup_q avf atoms x_)
        (avf.Q x.y x.x a)).V.getD 0 0 ≤
        pyGetD (update_inner ggamma bbeta r atoms.tail (sup_q avf atoms x_)
          (avf.Q x.y x.x a)).V (-1) 0
    · rw [if_pos hc] at h
      rw [← Option.some.inj h, setQ_same]
      exact hc
    · rw [if_neg hc] at h
      exact absurd h (by simp)

/-- The table produced by the `update` call of the C8 witness. -/
def avfA : ActionValueFunction :=
  setQ avf0 0 0 0
    (update_inner 1 (1/10) 0 atoms3.tail (sup_q avf0 atoms3 ⟨0, 0⟩) (avf0.Q 0 0 0))

/-- Witness for C8: a concrete `update` call that passes the assertion,
and its resulting cell satisfies `V[0] <= V[-1]`. -/
theorem c8_witness :
    update avf0 atoms3 1 (1/10) ⟨0, 0⟩ 0 ⟨0, 0⟩ 0 = some avfA ∧
    (avfA.Q 0 0 0).V.getD 0 0 ≤ pyGetD (avfA.Q 0 0 0).V (-1) 0 := by
  have hcond : (update_inner 1 (1/10) 0 atoms3.tail (sup_q avf0 atoms3 ⟨0, 0⟩)
      (avf0.Q 0 0 0)).V.getD 0 0 ≤
      pyGetD (update_inner 1 (1/10) 0 atoms3.tail (sup_q avf0 atoms3 ⟨0, 0⟩)
        (avf0.Q 0 0 0)).V (-1) 0 := by
    norm_num [update_inner, stepAtoms, sup_q, yc_to_var, yc_to_var_aux,
      atom_p, npMax, avf0, atoms3, List.range_succ, pyGetD, min_def]
  have h1 : update avf0 atoms3 1 (1/10) ⟨0, 0⟩ 0 ⟨0, 0⟩ 0 = some avfA := by
    simp only [update]
    split
    · rfl
    · next hcond2 => exact absurd hcond hcond2
  exact ⟨h1, (c8_update_assert avf0 atoms3 1 (1/10) 0 ⟨0, 0⟩ 0 ⟨0, 0⟩).2 avfA h1⟩

/-! ### C7: monotonicity of `e_min_s` -/

theorem e_min_s_zip_nonpos (s : ℚ) : ∀ (l : List (ℚ × ℚ)),
    (∀ pv ∈ l, 0 ≤ pv.1) → e_min_s_zip s l ≤ 0
  | [], _ => le_refl _
  | (p, v) :: rest, h => by
    rw [e_min_s_zip]
    by_cases hv : v < s
    · rw [if_pos hv]
      have h1 : p * (v - s) ≤ 0 :=
        mul_nonpos_of_nonneg_of_nonpos (h (p, v) (List.mem_cons_self _ _)) (by linarith)
      have h2 := e_min_s_zip_nonpos s rest (fun pv hpv => h pv (List.mem_cons_of_mem _ hpv))
      linarith
    · rw [if_neg hv]

theorem e_min_s_zip_mono (s1 s2 : ℚ) (hs : s1 ≤ s2) : ∀ (l : List (ℚ × ℚ)),
    (∀ pv ∈ l, 0 ≤ pv.1) → e_min_s_zip s2 l ≤ e_min_s_zip s1 l
  | [], _ => le_refl _
  | (p, v) :: rest, h => by
    have hp : 0 ≤ p := h (p, v) (List.mem_cons_self _ _)
    have hrest : ∀ pv ∈ rest, 0 ≤ pv.1 := fun pv hpv => h pv (List.mem_cons_of_mem _ hpv)
    by_cases hv1 : v < s1
    · have hv2 : v < s2 := lt_of_lt_of_le hv1 hs
      have hl : e_min_s_zip s2 ((p, v) :: rest) = p * (v - s2) + e_min_s_zip s2 rest := by
        rw [e_min_s_zip, if_pos hv2]
      have hr : e_min_s_zip s1 ((p, v) :: rest) = p * (v - s1) + e_min_s_zip s1 rest := by
        rw [e_min_s_zip, if_pos hv1]
      rw [hl, hr]
      have hterm : p * (v - s2) ≤ p * (v - s1) :=
        mul_le_mul_of_nonneg_left (by linarith) hp
      have hih := e_min_s_zip_mono s1 s2 hs rest hrest
      linarith
    · have hr : e_min_s_zip s1 ((p, v) :: rest) = 0 := by
        rw [e_min_s_zip, if_neg hv1]
      rw [hr]
      exact e_min_s_zip_nonpos s2 ((p, v) :: rest) h

theorem e_min_s_zip_takeWhile (s : ℚ) : ∀ (l : List (ℚ × ℚ)),
    e_min_s_zip s l =
      ((l.takeWhile (fun pv => decide (pv.2 < s))).map
        (fun pv => pv.1 * (pv.2 - s))).sum
  | [] => rfl
  | (p, v) :: rest => by
    rw [e_min_s_zip, List.takeWhile_cons]
    by_cases hv : v < s
    · rw [if_pos hv, if_pos (show decide (v < s) = true by simpa using hv),
        List.map_cons, List.sum_cons, e_min_s_zip_takeWhile s rest]
    · rw [if_neg hv, if_neg (show ¬ decide (v < s) = true by simpa using hv)]
      rfl

/-- C7: for a `MarkovState` with non-decreasing `V` and non-negative
atom masses, `e_min_s` is non-increasing in `s`, equals `0` whenever `s`
is below the minimum quantile value `V[0]`, and is the sum of
`mass[i] * (V[i] - s)` over the prefix of atoms with `V[i] < s`
(stopping at the first atom at or above `s`). -/
theorem c7_e_min_s (st : MarkovState) (masses : List ℚ)
    (hm : ∀ p ∈ masses, 0 ≤ p)
    (_hV : List.Chain' (fun p q => p ≤ q) st.V) :
    (∀ s1 s2 : ℚ, s1 ≤ s2 → e_min_s st masses s2 ≤ e_min_s st masses s1) ∧
    (∀ s : ℚ, s < st.V.getD 0 0 → e_min_s st masses s = 0) ∧
    (∀ s : ℚ, e_min_s st masses s =
      (((masses.zip st.V).takeWhile (fun pv => decide (pv.2 < s))).map
        (fun pv => pv.1 * (pv.2 - s))).sum) := by
  have hzip : ∀ pv ∈ masses.zip st.V, (0 : ℚ) ≤ pv.1 := by
    intro pv hpv
    obtain ⟨p, v⟩ := pv
    exact hm p (List.of_mem_zip hpv).1
  refine ⟨fun s1 s2 hs => e_min_s_zip_mono s1 s2 hs (masses.zip st.V) hzip,
    fun s hs => ?_, fun s => e_min_s_zip_takeWhile s (masses.zip st.V)⟩
  rw [e_min_s]
  cases hmm : masses with
  | nil => rfl
  | cons p ps =>
    cases hvv : st.V with
    | nil => rfl
    | cons v vs =>
      have hv : ¬ v < s := by
        rw [hvv] at hs
        simp only [List.getD_cons_zero] at hs
        linarith
      rw [List.zip_cons_cons, e_min_s_zip, if_neg hv]

/-- Witness for C7 at `V = [1, 2]`, masses `[1/4, 1/4]`. -/
theorem c7_witness :
    e_min_s ⟨[1, 2], [0, 0]⟩ [1/4, 1/4] 1 ≤ e_min_s ⟨[1, 2], [0, 0]⟩ [1/4, 1/4] 0 ∧
    e_min_s ⟨[1, 2], [0, 0]⟩ [1/4, 1/4] 0 = 0 := by
  have h := c7_e_min_s ⟨[1, 2], [0, 0]⟩ [1/4, 1/4]
    (by norm_num) (by norm_num [List.chain'_cons])
  exact ⟨h.1 0 1 (by norm_num), h.2.1 0 (by norm_num)⟩

/-! ### Helper lemmas for the break-index search -/

theorem pyGetD_ofNat (l : List ℚ) (n : Nat) (d : ℚ) :
    pyGetD l (n : Int) d = l.getD n d := by
  rw [pyGetD, if_neg (by omega)]
  simp

theorem tail_getD (l : List ℚ) (j : Nat) (d : ℚ) :
    l.tail.getD j d = l.getD (j + 1) d := by
  cases l <;> simp [List.getD]

theorem loop_break_spec (alpha : ℚ) : ∀ (l : List ℚ) (start k : Nat),
    k < l.length → (∀ j, j < k → l.getD j 0 ≤ alpha) → alpha < l.getD k 0 →
    loop_break alpha l start = start + k
  | [], _, k, hk, _, _ => absurd hk (by simp)
  | t :: rest, start, 0, _, _, hb => by
    rw [loop_break, if_pos (by simpa using hb)]
    omega
  | t :: rest, start, k + 1, hk, hle, hb => by
    have ht : ¬ alpha < t := by
      have h0 := hle 0 (Nat.succ_pos k)
      simp only [List.getD_cons_zero] at h0
      exact not_lt.mpr h0
    rw [loop_break, if_neg ht,
      loop_break_spec alpha rest (start + 1) k (by simpa using hk)
        (fun j hj => by simpa using hle (j + 1) (by omega))
        (by simpa using hb)]
    omega

theorem chain'_lt_getD_le (l : List ℚ) (h : List.Chain' (fun p q => p < q) l)
    (a b : Nat) (hab : a ≤ b) (hb : b < l.length) : l.getD a 0 ≤ l.getD b 0 := by
  rcases Nat.eq_or_lt_of_le hab with heq | hlt
  · rw [heq]
  · have ha : a < l.length := lt_trans hlt hb
    have hp := List.chain'_iff_pairwise.mp h
    have hg := List.pairwise_iff_get.mp hp ⟨a, ha⟩ ⟨b, hb⟩ hlt
    rw [List.getD_eq_getElem l 0 ha, List.getD_eq_getElem l 0 hb]
    exact le_of_lt hg

/-! ### C9: `yc_alpha` is piecewise-linear interpolation -/

/-- C9: over a strictly increasing atom grid starting at 0, `yc_alpha`
returns `(alpha/atoms[1]) * yC[0]` on the first atom interval, and
`yC[i-2] + ((alpha - atoms[i-1])/(atoms[i] - atoms[i-1])) * (yC[i-1] - yC[i-2])`
when `alpha` lies in `[atoms[i-1], atoms[i])` for `i >= 2` — the
piecewise-linear CVaR curve through the stored anchors, with the first
segment anchored at `(0, 0)`. -/
theorem c9_yc_alpha (st : MarkovState) (atoms : List ℚ)
    (hchain : List.Chain' (fun p q => p < q) atoms)
    (h0 : atoms.getD 0 0 = 0) (hlen : 2 ≤ atoms.length) :
    (∀ alpha : ℚ, 0 < alpha → alpha < atoms.getD 1 0 →
      yc_alpha st atoms alpha = alpha / atoms.getD 1 0 * st.yC.getD 0 0) ∧
    (∀ (i : Nat) (alpha : ℚ), 2 ≤ i → i < atoms.length →
      atoms.getD (i - 1) 0 ≤ alpha → alpha < atoms.getD i 0 →
      yc_alpha st atoms alpha = st.yC.getD (i - 2) 0 +
        (alpha - atoms.getD (i - 1) 0) / (atoms.getD i 0 - atoms.getD (i - 1) 0) *
          (st.yC.getD (i - 1) 0 - st.yC.getD (i - 2) 0)) := by
  constructor
  · intro alpha ha0 ha1
    have hbreak : loop_break alpha atoms.tail 1 = 1 := by
      rw [loop_break_spec alpha atoms.tail 1 0
        (by rw [List.length_tail]; omega) (by omega)
        (by rw [tail_getD]; exact ha1)]
    simp only [yc_alpha, hbreak, if_true]
    have e1 : ((1 : Nat) : Int) - 1 = ((0 : Nat) : Int) := by decide
    rw [e1]
    simp only [pyGetD_ofNat]
    rw [h0, sub_zero, sub_zero]
  · intro i alpha hi2 hilen hge hlt
    have hbreak : loop_break alpha atoms.tail 1 = i := by
      rw [loop_break_spec alpha atoms.tail 1 (i - 1)
        (by rw [List.length_tail]; omega)
        (fun j hj => by
          rw [tail_getD]
          exact le_trans
            (chain'_lt_getD_le atoms hchain (j + 1) (i - 1) (by omega) (by omega)) hge)
        (by
          rw [tail_getD]
          have hone : i - 1 + 1 = i := by omega
          rw [hone]
          exact hlt)]
      omega
    simp only [yc_alpha, hbreak]
    rw [if_neg (by omega : ¬ i = 1)]
    have e1 : (i : Int) - 1 = ((i - 1 : Nat) : Int) := by omega
    have e2 : (i : Int) - 2 = ((i - 2 : Nat) : Int) := by omega
    rw [e1, e2]
    simp only [pyGetD_ofNat]

/-- Witness for C9 on the grid `[0, 1/4, 1/2, 1]` with
`yC = [1, 2, 3]`: both the first interval and the interval
`[1/4, 1/2)` interpolate as claimed. -/
theorem c9_witness :
    yc_alpha ⟨[0, 0, 0], [1, 2, 3]⟩ [0, 1/4, 1/2, 1] (1/8) =
      (1/8) / ([0, 1/4, 1/2, 1] : List ℚ).getD 1 0 *
        ([1, 2, 3] : List ℚ).getD 0 0 ∧
    yc_alpha ⟨[0, 0, 0], [1, 2, 3]⟩ [0, 1/4, 1/2, 1] (3/8) =
      ([1, 2, 3] : List ℚ).getD 0 0 +
        ((3/8) - ([0, 1/4, 1/2, 1] : List ℚ).getD 1 0) /
            (([0, 1/4, 1/2, 1] : List ℚ).getD 2 0 -
              ([0, 1/4, 1/2, 1] : List ℚ).getD 1 0) *
          (([1, 2, 3] : List ℚ).getD 1 0 - ([1, 2, 3] : List ℚ).getD 0 0) := by
  have h := c9_yc_alpha ⟨[0, 0, 0], [1, 2, 3]⟩ [0, 1/4, 1/2, 1]
    (by norm_num [List.chain'_cons]) (by norm_num) (by norm_num)
  exact ⟨h.1 (1/8) (by norm_num) (by norm_num),
    h.2 2 (3/8) (by norm_num) (by norm_num) (by norm_num) (by norm_num)⟩

/-! ### C5: `var_alpha` reads a transposed cell -/

/-- A one-action table distinguishing the cell at (row 0, column 1)
(`V = [5, 5]`) from the cell at (row 1, column 0) (`V = [7, 7]`). -/
def avfC5 : ActionValueFunction :=
  ⟨fun row col _ =>
    if row = 0 ∧ col = 1 then ⟨[5, 5], [0, 0]⟩
    else if row = 1 ∧ col = 0 then ⟨[7, 7], [0, 0]⟩
    else ⟨[0, 0], [0, 0]⟩, [0]⟩

/-- C5, evaluation at the failing input: for the grid state with
`x = 1` (column) and `y = 0` (row), `var_alpha` picks the correct
bucket (`alpha = 1/4` falls before `atoms[1] = 1/2`, so `V[0]` is read)
but reads the transposed cell `Q[x.x, x.y, a] = Q[1, 0, a]` and returns
`7`, while the `(x, a)` cell under the `Q[x.y, x.x, a]` convention used
by every other method holds `5`. -/
theorem c5_var_alpha_transposed :
    var_alpha avfC5 atoms3 ⟨1, 0⟩ 0 (1/4) = 7 ∧
    (avfC5.Q 0 1 0).V.getD 0 0 = 5 ∧ (7 : ℚ) ≠ 5 := by
  refine ⟨?_, by norm_num [avfC5], by norm_num⟩
  norm_num [var_alpha, loop_break, pyGetD, avfC5, atoms3]

/-! ### C6: the episode risk budget `s` -/

/-- The epsilon-greedy action the loop body picks at step `k`:
`a = eps_greedy(Q.next_action_s(x, s), eps, world.ACTIONS)`, with the
randomness of step `k` drawn from the oracles `u`/`jdx`. -/
def ep_action (atoms : List ℚ) (eps : ℚ) (u : Nat → ℚ) (jdx : Nat → Nat)
    (Qk : ActionValueFunction) (xk : GridState) (sk : ℚ) (k : Nat) : Nat :=
  eps_greedy (next_action_s Qk atoms xk sk) eps Qk.ACTIONS (u k) (jdx k)

theorem q_ep_loop_trace (world : World) (atoms : List ℚ) (ggamma bbeta eps : ℚ)
    (u : Nat → ℚ) (jdx : Nat → Nat) (samp : Nat → GridState → Nat → GridState × ℚ) :
    ∀ (fuel : Nat) (x : GridState) (s : ℚ) (Q : ActionValueFunction) (i : Nat)
      (out : GridState × ℚ × ActionValueFunction × Nat),
      q_ep_loop world atoms ggamma bbeta eps u jdx samp fuel x s Q i = some out →
      ∃ (n : Nat) (xs : Nat → GridState) (ss : Nat → ℚ) (Qs : Nat → ActionValueFunction),
        out.2.2.2 = i + n ∧ xs 0 = x ∧ ss 0 = s ∧ Qs 0 = Q ∧
        out.1 = xs n ∧ out.2.1 = ss n ∧ out.2.2.1 = Qs n ∧
        ∀ k, k < n →
          xs (k + 1) =
            (samp (i + k) (xs k)
              (ep_action atoms eps u jdx (Qs k) (xs k) (ss k) (i + k))).1 ∧
          ss (k + 1) =
            (ss k - (samp (i + k) (xs k)
              (ep_action atoms eps u jdx (Qs k) (xs k) (ss k) (i + k))).2) / ggamma ∧
          update (Qs k) atoms ggamma bbeta (xs k)
              (ep_action atoms eps u jdx (Qs k) (xs k) (ss k) (i + k))
              (samp (i + k) (xs k)
                (ep_action atoms eps u jdx (Qs k) (xs k) (ss k) (i + k))).1
              (samp (i + k) (xs k)
                (ep_action atoms eps u jdx (Qs k) (xs k) (ss k) (i + k))).2 =
            some (Qs (k + 1))
  | 0, x, s, Q, i, out, h => by
    rw [q_ep_loop] at h
    rw [← Option.some.inj h]
    exact ⟨0, fun _ => x, fun _ => s, fun _ => Q, rfl, rfl, rfl, rfl, rfl, rfl, rfl,
      fun k hk => absurd hk (Nat.not_lt_zero k)⟩
  | Nat.succ fuel, x, s, Q, i, out, h => by
    simp only [q_ep_loop] at h
    by_cases hg : x ∈ world.goal_states
    · rw [if_pos hg] at h
      rw [← Option.some.inj h]
      exact ⟨0, fun _ => x, fun _ => s, fun _ => Q, rfl, rfl, rfl, rfl, rfl, rfl, rfl,
        fun k hk => absurd hk (Nat.not_lt_zero k)⟩
    · rw [if_neg hg] at h
      cases hupd : update Q atoms ggamma bbeta x
          (eps_greedy (next_action_s Q atoms x s) eps Q.ACTIONS (u i) (jdx i))
          (samp i x (eps_greedy (next_action_s Q atoms x s) eps Q.ACTIONS (u i) (jdx i))).1
          (samp i x (eps_greedy (next_action_s Q atoms x s) eps Q.ACTIONS (u i) (jdx i))).2 with
      | none =>
        rw [hupd] at h
        exact Option.noConfusion h
      | some Q' =>
        rw [hupd] at h
        obtain ⟨n', xs', ss', Qs', h1, h2, h3, h4, h5, h6, h7, hstep⟩ :=
          q_ep_loop_trace world atoms ggamma bbeta eps u jdx samp fuel
            (samp i x (eps_greedy (next_action_s Q atoms x s) eps Q.ACTIONS (u i) (jdx i))).1
            ((s - (samp i x (eps_greedy (next_action_s Q atoms x s) eps Q.ACTIONS
              (u i) (jdx i))).2) / ggamma)
            Q' (i + 1) out h
        refine ⟨n' + 1,
          fun k => match k with | 0 => x | Nat.succ k' => xs' k',
          fun k => match k with | 0 => s | Nat.succ k' => ss' k',
          fun k => match k with | 0 => Q | Nat.succ k' => Qs' k',
          by omega, rfl, rfl, rfl, h5, h6, h7, ?_⟩
        intro k hk
        cases k with
        | zero =>
          refine ⟨h2, h3, ?_⟩
          rw [← h4] at hupd
          exact hupd
        | succ k'' =>
          have hidx : i + (k'' + 1) = i + 1 + k'' := by omega
          rw [hidx]
          exact hstep k'' (by omega)

/-- C6: in every episode, the risk budget `s` starts at
`var_alpha(x0, a0, alpha)` for the epsilon-greedy initial action `a0`
chosen via `next_action_alpha`, and along the whole trajectory the only
operation that changes `s` is the per-transition rescaling: for every
step `k`, the next state is what `samp` returned at the chosen
epsilon-greedy action, and `s_{k+1} = (s_k - r_k)/gamma` with `r_k` the
reward `samp` returned there, applied before the state advances; the
final `s` of the episode is `s_n`. -/
theorem c6_risk_budget (world : World) (atoms : List ℚ) (ggamma bbeta eps alpha : ℚ)
    (u0 : ℚ) (j0 : Nat) (u : Nat → ℚ) (jdx : Nat → Nat)
    (samp : Nat → GridState → Nat → GridState × ℚ) (maxlen : Nat)
    (Q : ActionValueFunction) (out : GridState × ℚ × ActionValueFunction × Nat)
    (h : q_episode world atoms ggamma bbeta eps alpha u0 j0 u jdx samp maxlen Q = some out) :
    ∃ (n : Nat) (xs : Nat → GridState) (ss : Nat → ℚ) (Qs : Nat → ActionValueFunction),
      out.2.2.2 = n ∧
      xs 0 = world.initial_state ∧
      ss 0 = var_alpha Q atoms world.initial_state
        (q_ep_init_action world Q atoms eps alpha u0 j0) alpha ∧
      Qs 0 = Q ∧
      out.1 = xs n ∧ out.2.1 = ss n ∧ out.2.2.1 = Qs n ∧
      ∀ k, k < n →
        xs (k + 1) =
          (samp k (xs k) (ep_action atoms eps u jdx (Qs k) (xs k) (ss k) k)).1 ∧
        ss (k + 1) =
          (ss k - (samp k (xs k)
            (ep_action atoms eps u jdx (Qs k) (xs k) (ss k) k)).2) / ggamma ∧
        update (Qs k) atoms ggamma bbeta (xs k)
            (ep_action atoms eps u jdx (Qs k) (xs k) (ss k) k)
            (samp k (xs k) (ep_action atoms eps u jdx (Qs k) (xs k) (ss k) k)).1
            (samp k (xs k) (ep_action atoms eps u jdx (Qs k) (xs k) (ss k) k)).2 =
          some (Qs (k + 1)) := by
  obtain ⟨n, xs, ss, Qs, h1, h2, h3, h4, h5, h6, h7, hstep⟩ :=
    q_ep_loop_trace world atoms ggamma bbeta eps u jdx samp maxlen
      world.initial_state
      (var_alpha Q atoms world.initial_state
        (q_ep_init_action world Q atoms eps alpha u0 j0) alpha)
      Q 0 out h
  refine ⟨n, xs, ss, Qs, by omega, h2, h3, h4, h5, h6, h7, ?_⟩
  intro k hk
  have hc := hstep k hk
  rw [Nat.zero_add] at hc
  exact hc

/-- A world whose initial state is terminal, for the C6 witness. -/
def worldW : World := ⟨⟨0, 0⟩, [⟨0, 0⟩]⟩

/-- Witness for C6: on a world whose initial state is terminal, the
episode runs zero steps, and the trajectory degenerates to the initial
state with `s` at its initial `var_alpha` value. -/
theorem c6_witness :
    ∃ (n : Nat) (xs : Nat → GridState) (ss : Nat → ℚ) (Qs : Nat → ActionValueFunction),
      (0 : Nat) = n ∧
      xs 0 = worldW.initial_state ∧
      ss 0 = var_alpha avf0 atoms3 worldW.initial_state
        (q_ep_init_action worldW avf0 atoms3 (1/10) (1/4) 1 0) (1/4) ∧
      Qs 0 = avf0 ∧
      (⟨0, 0⟩ : GridState) = xs n ∧ (0 : ℚ) = ss n ∧ avf0 = Qs n ∧
      ∀ k, k < n →
        xs (k + 1) = xs k ∧
        ss (k + 1) = (ss k - 0) / 1 ∧
        update (Qs k) atoms3 1 (1/10) (xs k)
            (ep_action atoms3 (1/10) (fun _ => 1) (fun _ => 0) (Qs k) (xs k) (ss k) k)
            (xs k) 0 =
          some (Qs (k + 1)) := by
  have h : q_episode worldW atoms3 1 (1/10) (1/10) (1/4) 1 0 (fun _ => 1)
      (fun _ => 0) (fun _ x _ => (x, 0)) 5 avf0 = some (⟨0, 0⟩, 0, avf0, 0) := by
    norm_num [q_episode, q_ep_loop, q_ep_init_action, eps_greedy, next_action_alpha,
      npArgmax, npArgmax_go, yc_alpha, loop_break, pyGetD, var_alpha, avf0, atoms3,
      worldW]
  exact c6_risk_budget worldW atoms3 1 (1/10) (1/10) (1/4) 1 0 (fun _ => 1)
    (fun _ => 0) (fun _ x _ => (x, 0)) 5 avf0 (⟨0, 0⟩, 0, avf0, 0) h

end CvarQ
